import Mathlib

/-!
Shallow embedding of the numeric core of `src/precision.py` (class `Precision`
of the mat2py repository), together with theorems checking the specification
claims about it.

Modelling conventions:
* Python floats are modelled as rationals (`ℚ`); the numeric algorithms of the
  source (sorting, linear interpolation, counting) are exact, so the rational
  model reproduces them.
* A Python `assert` that fails raises `AssertionError`, which propagates to the
  caller; fallible operations therefore return `Except Err _`.
* `numpy.sort` on a list of numbers is an ascending sort, modelled by
  `List.insertionSort`.
* `numpy.interp` is modelled by `interp` below (piecewise-linear interpolation
  with flat extrapolation outside the knot range).
* Lists with dynamically typed contents (Python lists may mix numbers and
  strings) are modelled by `List PyVal`; `numpy.interp` fails on non-numeric
  data, which the source catches, returning the default `0.0`.
-/

deriving instance DecidableEq for Except

namespace Mat2Py

/-- Errors surfaced to a caller: a failed Python `assert` raises
`AssertionError`. -/
inductive Err
  | assertionError
  deriving DecidableEq

/-- A dynamically typed Python value appearing in an input list: a number or a
string.  The numeric algorithms of `precision.py` succeed on all-numeric lists
and their internal numpy calls raise on string data. -/
inductive PyVal
  | num (q : ℚ)
  | str (s : String)
  deriving DecidableEq

/-- `numpy.sort` on a one-dimensional numeric array: ascending sort. -/
def sortQ (l : List ℚ) : List ℚ :=
  l.insertionSort (· ≤ ·)

/-- `numpy.linspace a b n`: `n` evenly spaced points from `a` to `b`
inclusive; a single point is just `[a]`. -/
def linspace (a b : ℚ) (n : ℕ) : List ℚ :=
  if n = 1 then [a]
  else (List.range n).map (fun i : ℕ => a + (i : ℚ) * (b - a) / ((n : ℚ) - 1))

/-- Helper for `interp`: walks the knot list `(x0,y0) :: rest`.  For a query
`q` at or left of the current knot it returns the current ordinate, between
two knots it interpolates linearly, and otherwise it advances. -/
def interpAux (q : ℚ) : ℚ × ℚ → List (ℚ × ℚ) → ℚ
  | (_, y0), [] => y0
  | (x0, y0), (x1, y1) :: rest =>
    if q ≤ x0 then y0
    else if q ≤ x1 then y0 + (y1 - y0) * (q - x0) / (x1 - x0)
    else interpAux q (x1, y1) rest

/-- `numpy.interp q xp fp` over the zipped knot list `xp.zip fp` (with
`xp` increasing): piecewise-linear interpolation, clamped to the first
(respectively last) ordinate left (respectively right) of the knot range. -/
def interp (q : ℚ) : List (ℚ × ℚ) → ℚ
  | [] => 0
  | p :: rest => interpAux q p rest

/-- The numeric core of `Precision.quantile` on an all-numeric list `x`:
`numpy.interp(q, numpy.linspace(1/(2n), (2n-1)/(2n), n), numpy.sort(x))`
with `n = len(x)`. -/
def quantileCore (x : List ℚ) (q : ℚ) : ℚ :=
  interp q
    ((linspace (1 / (2 * (x.length : ℚ))) ((2 * (x.length : ℚ) - 1) / (2 * (x.length : ℚ)))
      x.length).zip (sortQ x))

/-- Extract the numbers of a Python list if it is all-numeric; `none` when a
string is present (in which case `numpy.interp` raises inside the source). -/
def allNums : List PyVal → Option (List ℚ)
  | [] => some []
  | PyVal.num q :: t => (allNums t).map (q :: ·)
  | PyVal.str _ :: _ => none

/-- `Precision.quantile(x, q)` (`src/precision.py`, lines 111-140): two
`assert` statements (`len(x) >= 1`, `q >= 0.0`) run before the `try` block;
inside the `try`, the interpolation against the plotting positions is
computed.  Any exception raised inside the `try` (for instance by
`numpy.interp` on non-numeric data) is caught, printed, and the function
returns the default `float(0.0)`. -/
def quantile (x : List PyVal) (q : ℚ) : Except Err ℚ :=
  if x.length < 1 then .error .assertionError
  else if q < 0 then .error .assertionError
  else
    match allNums x with
    | some xs => .ok (quantileCore xs q)
    | none => .ok 0

/-- `Precision.prctile(x, p)` (`src/precision.py`, lines 142-170): asserts
`len(x) >= 1` and `p >= 1`, then delegates to `quantile(x, p / 100)`.  The
`try` around the delegation can only catch exceptions that `quantile` lets
escape; since the asserts of `quantile` are implied by those of `prctile`
and `quantile` swallows its own internal exceptions, the delegation is
exact. -/
def prctile (x : List PyVal) (p : ℚ) : Except Err ℚ :=
  if x.length < 1 then .error .assertionError
  else if p < 1 then .error .assertionError
  else quantile x (p / 100)

/-- The `reduce` body of the list variant of `Precision.unique`
(`src/precision.py`, lines 443-464): fold over the input, appending each
element not yet seen — the order-preserving distinct list. -/
def uniqueOrderedCore {α : Type*} [DecidableEq α] (l : List α) : List α :=
  l.foldl (fun y x => if x ∈ y then y else y ++ [x]) []

/-- The list variant of `Precision.unique` (`uniqueOrdered` in the spec):
asserts `len(l) >= 1`, then returns the first-seen-order distinct list. -/
def unique_list {α : Type*} [DecidableEq α] (l : List α) : Except Err (List α) :=
  if l.length < 1 then .error .assertionError
  else .ok (uniqueOrderedCore l)

/-- The ascending list of distinct values of `l`: the first output of
`numpy.unique(l, ...)`. -/
def uniqueValues (l : List ℚ) : List ℚ :=
  sortQ (uniqueOrderedCore l)

/-- The record produced by the `numpy.ndarray` variant of `Precision.unique`
(`uniqueStats` in the spec): four parallel sequences. -/
structure UniqueStats where
  values : List ℚ
  firstIdx : List ℕ
  counts : List ℕ
  invIdx : List ℕ
  deriving DecidableEq

/-- The `numpy.ndarray` variant of `Precision.unique` (`src/precision.py`,
lines 466-501): asserts `l.size >= 1`, computes
`numpy.unique(l, return_index=True, return_counts=True, return_inverse=True)`
giving the ascending distinct values `a`, the first-occurrence index `b` of
each distinct value, the multiplicity `c` of each distinct value, and the
inverse index `d` mapping each original position to its slot in `a`.  When
`a.size > 1` all four are returned; otherwise (exactly one distinct value)
the last three fields are replaced by the sentinel `0`. -/
def unique_ndarray (l : List ℚ) : Except Err UniqueStats :=
  if l.length < 1 then .error .assertionError
  else
    let a := uniqueValues l
    if 1 < a.length then
      .ok ⟨a, a.map (fun v => l.indexOf v), a.map (fun v => l.count v),
        l.map (fun x => a.indexOf x)⟩
    else .ok ⟨a, [0], [0], [0]⟩

/-- The `(list, list)` variant of `Precision.overlap1d` (`src/precision.py`,
lines 526-552): asserts both inputs non-empty and of equal length, then for
each position `i` of `enumerate(zip(v0, v1))` where `v0[i] == v1[i]` records
`[i, (v0[i], v1[i])]`. -/
def overlap1d {α : Type*} [DecidableEq α] (v0 v1 : List α) :
    Except Err (List (ℕ × (α × α))) :=
  if v0.length < 1 then .error .assertionError
  else if v1.length < 1 then .error .assertionError
  else if v0.length ≠ v1.length then .error .assertionError
  else .ok (((v0.zip v1).enum).filter (fun ip => decide (ip.2.1 = ip.2.2)))

/-- The `(list, list, int)` generator variant of `Precision.overlap1d`
(`src/precision.py`, lines 554-580), forced to a value: asserts both inputs
non-empty and of equal length, then for every element `i` of `v0` yields the
list of positions `p` of `v1` with `i == v1[p]`.  (In Python the body runs
lazily, on the first demand of the resulting generator; forcing the
generator is what evaluates the asserts and the yields.) -/
def overlap1d_lazy {α : Type*} [DecidableEq α] (v0 v1 : List α) :
    Except Err (List (List ℕ)) :=
  if v0.length < 1 then .error .assertionError
  else if v1.length < 1 then .error .assertionError
  else if v0.length ≠ v1.length then .error .assertionError
  else .ok (v0.map (fun i => (v1.enum.filter (fun pj => decide (i = pj.2))).map Prod.fst))

/-- `numpy.argsort` on a numeric list: the positions `0..n-1` sorted by the
value they hold (a deterministic, stable order). -/
def argsortQ (v : List ℚ) : List ℕ :=
  List.insertionSort (fun i j => v.getD i 0 ≤ v.getD j 0) (List.range v.length)

/-- `s.searchsorted(x, side="left")` for `s` sorted ascending: the number of
entries of `s` strictly below `x`. -/
def ssLeft (s : List ℚ) (x : ℚ) : ℕ :=
  (s.filter (fun y => decide (y < x))).length

/-- `s.searchsorted(x, side="right")` for `s` sorted ascending: the number of
entries of `s` at or below `x`. -/
def ssRight (s : List ℚ) (x : ℚ) : ℕ :=
  (s.filter (fun y => decide (y ≤ x))).length

/-- `Precision.overlap2d` (`src/precision.py`, lines 582-612): argsort both
vectors; for each sorted position of either vector, use binary search
(`searchsorted`, left and right bounds) in the other sorted vector to test
whether its value occurs there (`right - left > 0`); `nonzero` collects the
sorted positions that match, and fancy indexing maps them back through the
argsort permutations. -/
def overlap2d (v0 v1 : List ℚ) : List ℕ × List ℕ :=
  let a1 := argsortQ v0
  let b1 := argsortQ v1
  let sa := a1.map (fun i => v0.getD i 0)
  let sb := b1.map (fun i => v1.getD i 0)
  let inds_b := (List.range sb.length).filter
    (fun p => decide (ssLeft sa (sb.getD p 0) < ssRight sa (sb.getD p 0)))
  let inds_a := (List.range sa.length).filter
    (fun p => decide (ssLeft sb (sa.getD p 0) < ssRight sb (sa.getD p 0)))
  (inds_a.map (fun i => a1.getD i 0), inds_b.map (fun i => b1.getD i 0))

/-! ### Basic facts -/

lemma length_lt_one_iff {α : Type*} (l : List α) : l.length < 1 ↔ l = [] := by
  cases l <;> simp

/-- `Precision.quantile` on an all-numeric list: the map through `PyVal.num`
recovers the underlying rationals. -/
lemma allNums_map_num (v : List ℚ) : allNums (v.map PyVal.num) = some v := by
  induction v with
  | nil => rfl
  | cons a t ih => simp [allNums, ih]

/-! ### C4: prctile delegates to quantile -/

/-- C4: for every non-empty sample vector `x` and every percentage
`p ∈ [1, 100]`, `prctile(x, p)` equals `quantile(x, p / 100)`: the percentile
operation only rescales `p` and delegates. -/
theorem prctile_delegates (x : List PyVal) (p : ℚ) (hx : x ≠ []) (hp : 1 ≤ p)
    (hp100 : p ≤ 100) : prctile x p = quantile x (p / 100) := by
  have hlen : ¬ x.length < 1 := by simp [length_lt_one_iff, hx]
  simp [prctile, hlen, not_lt.mpr hp]

theorem prctile_delegates_witness :
    prctile [PyVal.num 10, PyVal.num 20] 50 =
      quantile [PyVal.num 10, PyVal.num 20] (50 / 100) :=
  prctile_delegates [PyVal.num 10, PyVal.num 20] 50 (by decide) (by norm_num)
    (by norm_num)

/-! ### C5: overlap2d is symmetric up to argument order -/

/-- C5: swapping the two arguments of `overlap2d` swaps the two returned
index sequences: if `overlap2d v0 v1 = (ia, ib)` then
`overlap2d v1 v0 = (ib, ia)`.  The two components are computed by the same
expression with the roles of the vectors exchanged. -/
theorem overlap2d_symm (v0 v1 : List ℚ) :
    overlap2d v1 v0 = ((overlap2d v0 v1).2, (overlap2d v0 v1).1) := rfl

/-! ### C10: both 1D overlap variants reject empty input -/

/-- C10: if either input vector is empty, both 1D overlap variants fail with
the precondition (`assert`) error — even when the two lengths are equal — and
never return an empty result. -/
theorem overlap1d_empty_rejected {α : Type*} [DecidableEq α] (v0 v1 : List α)
    (h : v0 = [] ∨ v1 = []) :
    overlap1d v0 v1 = Except.error Err.assertionError ∧
    overlap1d_lazy v0 v1 = Except.error Err.assertionError := by
  rcases h with h | h
  · subst h; simp [overlap1d, overlap1d_lazy]
  · subst h; cases v0 <;> simp [overlap1d, overlap1d_lazy]

theorem overlap1d_empty_rejected_witness :
    overlap1d ([] : List ℚ) [] = Except.error Err.assertionError ∧
    overlap1d_lazy ([] : List ℚ) [] = Except.error Err.assertionError :=
  overlap1d_empty_rejected [] [] (Or.inl rfl)

/-! ### C7: the single-distinct-value sentinel collapse -/

/-- C7: when the input has exactly one distinct value, the ndarray variant of
`unique` collapses the first-occurrence-index, multiplicity and inverse-index
fields to the sentinel `0` instead of their computed form. -/
theorem unique_ndarray_sentinel (l : List ℚ) (hl : l ≠ [])
    (h1 : (uniqueValues l).length = 1) :
    unique_ndarray l = Except.ok ⟨uniqueValues l, [0], [0], [0]⟩ := by
  have hlen : ¬ l.length < 1 := by simp [length_lt_one_iff, hl]
  simp [unique_ndarray, hlen, h1]

theorem unique_ndarray_sentinel_witness :
    unique_ndarray [(7 : ℚ), 7] = Except.ok ⟨uniqueValues [(7 : ℚ), 7], [0], [0], [0]⟩ :=
  unique_ndarray_sentinel [(7 : ℚ), 7] (by decide) (by decide)

/-! ### C2, counterexample part: on a single-distinct-value input the returned
multiplicities do not sum to the input length -/

/-- C2 fails as stated on the one-element input `[3]`: the returned record is
the collapsed sentinel one, whose multiplicity list `[0]` sums to `0`, not to
the input length `1`. -/
theorem unique_ndarray_singleton_counterexample :
    unique_ndarray [(3 : ℚ)] = Except.ok ⟨[3], [0], [0], [0]⟩ ∧
    ([0] : List ℕ).sum ≠ [(3 : ℚ)].length := by
  constructor
  · decide
  · decide

/-! ### C9: the order-preserving distinct list shrinks and is idempotent -/

lemma mem_dedupFoldl {α : Type*} [DecidableEq α] (l : List α) :
    ∀ (acc : List α) (a : α),
      a ∈ l.foldl (fun y x => if x ∈ y then y else y ++ [x]) acc ↔ a ∈ acc ∨ a ∈ l := by
  induction l with
  | nil => simp
  | cons x t ih =>
    intro acc a
    simp only [List.foldl_cons]
    rw [ih]
    by_cases hx : x ∈ acc
    · simp only [if_pos hx, List.mem_cons]
      constructor
      · rintro (h | h) <;> tauto
      · rintro (h | rfl | h) <;> tauto
    · simp only [if_neg hx, List.mem_append, List.mem_singleton, List.mem_cons]
      tauto

lemma nodup_dedupFoldl {α : Type*} [DecidableEq α] (l : List α) :
    ∀ acc : List α, acc.Nodup →
      (l.foldl (fun y x => if x ∈ y then y else y ++ [x]) acc).Nodup := by
  induction l with
  | nil => intro acc h; simpa using h
  | cons x t ih =>
    intro acc h
    simp only [List.foldl_cons]
    apply ih
    by_cases hx : x ∈ acc
    · simpa [if_pos hx] using h
    · simp [if_neg hx, List.nodup_append, h, hx]

lemma length_dedupFoldl {α : Type*} [DecidableEq α] (l : List α) :
    ∀ acc : List α,
      (l.foldl (fun y x => if x ∈ y then y else y ++ [x]) acc).length ≤
        acc.length + l.length := by
  induction l with
  | nil => simp
  | cons x t ih =>
    intro acc
    simp only [List.foldl_cons]
    refine le_trans (ih _) ?_
    have hstep : (if x ∈ acc then acc else acc ++ [x]).length ≤ acc.length + 1 := by
      by_cases hx : x ∈ acc <;> simp [hx]
    simp only [List.length_cons]
    omega

lemma dedupFoldl_eq_of_nodup {α : Type*} [DecidableEq α] :
    ∀ (l acc : List α), (acc ++ l).Nodup →
      l.foldl (fun y x => if x ∈ y then y else y ++ [x]) acc = acc ++ l
  | [], acc, _ => by simp
  | x :: t, acc, h => by
    have hx : x ∉ acc := by
      rw [List.nodup_append] at h
      exact fun hxa => h.2.2 hxa (List.mem_cons_self x t)
    simp only [List.foldl_cons, if_neg hx]
    rw [dedupFoldl_eq_of_nodup t (acc ++ [x]) (by simpa using h)]
    simp

lemma nodup_uniqueOrderedCore {α : Type*} [DecidableEq α] (l : List α) :
    (uniqueOrderedCore l).Nodup :=
  nodup_dedupFoldl l [] List.nodup_nil

lemma mem_uniqueOrderedCore {α : Type*} [DecidableEq α] (l : List α) (a : α) :
    a ∈ uniqueOrderedCore l ↔ a ∈ l := by
  unfold uniqueOrderedCore
  rw [mem_dedupFoldl]
  simp

lemma uniqueOrderedCore_idem {α : Type*} [DecidableEq α] (l : List α) :
    uniqueOrderedCore (uniqueOrderedCore l) = uniqueOrderedCore l := by
  have h := dedupFoldl_eq_of_nodup (uniqueOrderedCore l) []
    (by simpa using nodup_uniqueOrderedCore l)
  simpa [uniqueOrderedCore] using h

lemma uniqueOrderedCore_ne_nil {α : Type*} [DecidableEq α] (l : List α)
    (hl : l ≠ []) : uniqueOrderedCore l ≠ [] := by
  obtain ⟨a, ha⟩ := List.exists_mem_of_ne_nil l hl
  exact List.ne_nil_of_mem ((mem_uniqueOrderedCore l a).mpr ha)

/-- C9: for every (non-empty, as the data model requires) input vector `l`,
the order-preserving distinct-list variant of `unique` succeeds, its output is
no longer than its input, and applying it again returns the same list
(idempotence). -/
theorem unique_list_shrinks_idem {α : Type*} [DecidableEq α] (l : List α)
    (hl : l ≠ []) :
    unique_list l = Except.ok (uniqueOrderedCore l) ∧
    (uniqueOrderedCore l).length ≤ l.length ∧
    unique_list (uniqueOrderedCore l) = Except.ok (uniqueOrderedCore l) := by
  have hlen : ¬ l.length < 1 := by simp [length_lt_one_iff, hl]
  have hlen2 : ¬ (uniqueOrderedCore l).length < 1 := by
    simp [length_lt_one_iff, uniqueOrderedCore_ne_nil l hl]
  refine ⟨by simp [unique_list, hlen], ?_, ?_⟩
  · simpa [uniqueOrderedCore] using length_dedupFoldl l []
  · simp [unique_list, hlen2, uniqueOrderedCore_idem]

theorem unique_list_shrinks_idem_witness :
    unique_list [1, 2, 1] = Except.ok (uniqueOrderedCore [1, 2, 1]) ∧
    (uniqueOrderedCore [1, 2, 1]).length ≤ ([1, 2, 1] : List ℕ).length ∧
    unique_list (uniqueOrderedCore [1, 2, 1]) =
      Except.ok (uniqueOrderedCore [1, 2, 1]) :=
  unique_list_shrinks_idem [1, 2, 1] (by decide)

/-! ### C6: overlap1d pairs exactly the agreeing positions -/

/-- C6: for equal-length non-empty vectors, `overlap1d` succeeds and its
result holds one entry `(i, (x, y))` precisely for the positions `i` at which
the two vectors hold equal values (with the matching value pair recorded). -/
theorem overlap1d_positions {α : Type*} [DecidableEq α] (v0 v1 : List α)
    (h0 : v0 ≠ []) (h1 : v1 ≠ []) (hl : v0.length = v1.length) :
    overlap1d v0 v1 =
      Except.ok (((v0.zip v1).enum).filter (fun ip => decide (ip.2.1 = ip.2.2))) ∧
    ∀ (i : ℕ) (x y : α),
      ((i, (x, y)) ∈ ((v0.zip v1).enum).filter (fun ip => decide (ip.2.1 = ip.2.2))) ↔
        (v0[i]? = some x ∧ v1[i]? = some y ∧ x = y) := by
  refine ⟨?_, ?_⟩
  · have h0' : ¬ v0.length < 1 := by simp [length_lt_one_iff, h0]
    have h1' : ¬ v1.length < 1 := by simp [length_lt_one_iff, h1]
    simp [overlap1d, h0', h1', hl]
  · intro i x y
    rw [List.mem_filter]
    simp only [decide_eq_true_eq]
    rw [List.mk_mem_enum_iff_getElem?]
    constructor
    · rintro ⟨hmem, heq⟩
      rw [List.getElem?_zip_eq_some] at hmem
      exact ⟨hmem.1, hmem.2, heq⟩
    · rintro ⟨ha, hb, heq⟩
      refine ⟨?_, heq⟩
      rw [List.getElem?_zip_eq_some]
      exact ⟨ha, hb⟩

theorem overlap1d_positions_witness :
    overlap1d ["A", "B", "A"] ["A", "D", "A"] =
      Except.ok [(0, ("A", "A")), (2, ("A", "A"))] := by
  have h := overlap1d_positions ["A", "B", "A"] ["A", "D", "A"] (by decide)
    (by decide) (by decide)
  exact h.1.trans (by decide)

/-! ### C2, amended part: the uniqueStats invariants away from the sentinel
case -/

lemma mem_uniqueValues (l : List ℚ) (a : ℚ) : a ∈ uniqueValues l ↔ a ∈ l := by
  unfold uniqueValues sortQ
  rw [(List.perm_insertionSort _ _).mem_iff]
  exact mem_uniqueOrderedCore l a

lemma nodup_uniqueValues (l : List ℚ) : (uniqueValues l).Nodup := by
  unfold uniqueValues sortQ
  exact (List.perm_insertionSort _ _).nodup_iff.mpr (nodup_uniqueOrderedCore l)

lemma uniqueValues_perm_dedup (l : List ℚ) : List.Perm (uniqueValues l) l.dedup :=
  (List.perm_ext_iff_of_nodup (nodup_uniqueValues l) (List.nodup_dedup l)).mpr
    (fun a => by rw [mem_uniqueValues, List.mem_dedup])

lemma sum_counts_uniqueValues (l : List ℚ) :
    ((uniqueValues l).map (fun v => l.count v)).sum = l.length := by
  rw [((uniqueValues_perm_dedup l).map _).sum_eq]
  exact List.sum_map_count_dedup_eq_length l

/-- C2, amended: for every input with at least two distinct values, the
ndarray variant of `unique` returns the full-statistics record; its
multiplicities sum to the input length, and for every original position the
inverse-index entry is a valid slot of the distinct-value sequence that maps
back to the original value. -/
theorem unique_ndarray_invariants (l : List ℚ)
    (h2 : 2 ≤ (uniqueValues l).length) :
    unique_ndarray l =
      Except.ok ⟨uniqueValues l, (uniqueValues l).map (fun v => l.indexOf v),
        (uniqueValues l).map (fun v => l.count v),
        l.map (fun x => (uniqueValues l).indexOf x)⟩ ∧
    ((uniqueValues l).map (fun v => l.count v)).sum = l.length ∧
    ∀ (i : ℕ) (a : ℚ), l[i]? = some a →
      (l.map (fun x => (uniqueValues l).indexOf x))[i]? =
        some ((uniqueValues l).indexOf a) ∧
      (uniqueValues l).indexOf a < (uniqueValues l).length ∧
      (uniqueValues l)[(uniqueValues l).indexOf a]? = some a := by
  have hl : l ≠ [] := by
    intro h
    subst h
    simp [uniqueValues, sortQ, uniqueOrderedCore] at h2
  have hlen : ¬ l.length < 1 := by simp [length_lt_one_iff, hl]
  refine ⟨?_, sum_counts_uniqueValues l, ?_⟩
  · simp [unique_ndarray, hlen, show 1 < (uniqueValues l).length by omega]
  · intro i a hia
    have hmem : a ∈ l := by
      have hi : i < l.length := by
        by_contra hcon
        rw [List.getElem?_eq_none (by omega)] at hia
        exact Option.noConfusion hia
      rw [List.getElem?_eq_getElem hi] at hia
      exact Option.some_injective _ hia ▸ List.getElem_mem hi
    have hmemu : a ∈ uniqueValues l := (mem_uniqueValues l a).mpr hmem
    have hlt : (uniqueValues l).indexOf a < (uniqueValues l).length :=
      List.indexOf_lt_length.mpr hmemu
    refine ⟨?_, hlt, ?_⟩
    · rw [List.getElem?_map, hia]
      rfl
    · rw [List.getElem?_eq_getElem hlt]
      exact congrArg some (by simpa [List.get_eq_getElem] using List.indexOf_get hlt)

theorem unique_ndarray_invariants_witness :
    unique_ndarray [(5 : ℚ), 3, 5] =
      Except.ok ⟨uniqueValues [(5 : ℚ), 3, 5],
        (uniqueValues [(5 : ℚ), 3, 5]).map (fun v => [(5 : ℚ), 3, 5].indexOf v),
        (uniqueValues [(5 : ℚ), 3, 5]).map (fun v => [(5 : ℚ), 3, 5].count v),
        [(5 : ℚ), 3, 5].map (fun x => (uniqueValues [(5 : ℚ), 3, 5]).indexOf x)⟩ ∧
    ((uniqueValues [(5 : ℚ), 3, 5]).map
      (fun v => [(5 : ℚ), 3, 5].count v)).sum = [(5 : ℚ), 3, 5].length := by
  have h := unique_ndarray_invariants [(5 : ℚ), 3, 5] (by decide)
  exact ⟨h.1, h.2.1⟩

/-! ### Interpolation lemmas: `interp` at a knot and outside the knot range -/

lemma interp_cons (q : ℚ) (p : ℚ × ℚ) (rest : List (ℚ × ℚ)) :
    interp q (p :: rest) = interpAux q p rest := rfl

lemma interpAux_of_le {q x0 y0 : ℚ} (rest : List (ℚ × ℚ)) (h : q ≤ x0) :
    interpAux q (x0, y0) rest = y0 := by
  cases rest with
  | nil => rfl
  | cons p t =>
    obtain ⟨x1, y1⟩ := p
    simp [interpAux, h]

lemma interpAux_skip {q x0 y0 x1 y1 : ℚ} (rest : List (ℚ × ℚ)) (h01 : x0 < x1)
    (hq : x1 ≤ q) :
    interpAux q (x0, y0) ((x1, y1) :: rest) = interpAux q (x1, y1) rest := by
  have hx0 : ¬ q ≤ x0 := not_le.mpr (lt_of_lt_of_le h01 hq)
  by_cases h1 : q ≤ x1
  · have hq1 : q = x1 := le_antisymm h1 hq
    subst hq1
    have hne : q - x0 ≠ 0 := sub_ne_zero.mpr (ne_of_gt h01)
    rw [interpAux_of_le rest le_rfl]
    simp only [interpAux, if_neg hx0, if_pos le_rfl]
    rw [mul_div_assoc, div_self hne, mul_one]
    ring
  · simp [interpAux, hx0, h1]

lemma chain'_head_le_get :
    ∀ (rest : List (ℚ × ℚ)) (x0 y0 : ℚ) (j : ℕ) (hj : j < ((x0, y0) :: rest).length),
      List.Chain' (fun a b : ℚ × ℚ => a.1 < b.1) ((x0, y0) :: rest) →
      x0 ≤ (((x0, y0) :: rest).get ⟨j, hj⟩).1
  | _, _, _, 0, _, _ => le_rfl
  | [], x0, y0, j + 1, hj, _ => absurd hj (by simp)
  | (x1, y1) :: rest1, x0, y0, j + 1, hj, hch => by
    have h01 : x0 < x1 := (List.chain'_cons.mp hch).1
    have htail := (List.chain'_cons.mp hch).2
    have hj' : j < ((x1, y1) :: rest1).length := by simpa using hj
    have hrec := chain'_head_le_get rest1 x1 y1 j hj' htail
    rw [List.get_cons_succ]
    exact le_trans (le_of_lt h01) hrec

lemma interp_at_knot :
    ∀ (ps : List (ℚ × ℚ)), List.Chain' (fun a b : ℚ × ℚ => a.1 < b.1) ps →
      ∀ (i : ℕ) (hi : i < ps.length),
        interp ((ps.get ⟨i, hi⟩).1) ps = (ps.get ⟨i, hi⟩).2
  | [], _, i, hi => absurd hi (by simp)
  | (x0, y0) :: rest, _, 0, _ => by
    simp only [List.get_cons_zero, interp_cons]
    exact interpAux_of_le rest le_rfl
  | [(x0, y0)], _, i + 1, hi => absurd hi (by simp)
  | (x0, y0) :: (x1, y1) :: rest1, hch, i + 1, hi => by
    have h01 : x0 < x1 := (List.chain'_cons.mp hch).1
    have htail := (List.chain'_cons.mp hch).2
    have hi' : i < ((x1, y1) :: rest1).length := by simpa using hi
    have hq : x1 ≤ (((x1, y1) :: rest1).get ⟨i, hi'⟩).1 :=
      chain'_head_le_get rest1 x1 y1 i hi' htail
    have hrec := interp_at_knot ((x1, y1) :: rest1) htail i hi'
    simp only [List.get_cons_succ, interp_cons] at hrec ⊢
    rw [interpAux_skip rest1 h01 hq]
    exact hrec

lemma interpAux_last :
    ∀ (rest : List (ℚ × ℚ)) (x0 y0 q : ℚ),
      List.Chain' (fun a b : ℚ × ℚ => a.1 < b.1) ((x0, y0) :: rest) →
      (((x0, y0) :: rest).getLast (by simp)).1 ≤ q →
      interpAux q (x0, y0) rest = (((x0, y0) :: rest).getLast (by simp)).2
  | [], x0, y0, q, _, _ => rfl
  | (x1, y1) :: rest1, x0, y0, q, hch, hlast => by
    have h01 : x0 < x1 := (List.chain'_cons.mp hch).1
    have htail := (List.chain'_cons.mp hch).2
    have hgl : ((x0, y0) :: (x1, y1) :: rest1).getLast (by simp) =
        ((x1, y1) :: rest1).getLast (by simp) := List.getLast_cons (by simp)
    rw [hgl] at hlast
    have hx1le : x1 ≤ (((x1, y1) :: rest1).getLast (by simp)).1 := by
      rw [List.getLast_eq_get]
      exact chain'_head_le_get rest1 x1 y1 _ _ htail
    have hq : x1 ≤ q := le_trans hx1le hlast
    rw [interpAux_skip rest1 h01 hq, hgl]
    exact interpAux_last rest1 x1 y1 q htail hlast

lemma interp_below (q : ℚ) (ps : List (ℚ × ℚ)) (h : 0 < ps.length)
    (hq : q ≤ (ps.get ⟨0, h⟩).1) : interp q ps = (ps.get ⟨0, h⟩).2 := by
  cases ps with
  | nil => simp at h
  | cons p rest =>
    obtain ⟨x0, y0⟩ := p
    exact interpAux_of_le rest hq

lemma interp_above (q : ℚ) (ps : List (ℚ × ℚ)) (h : ps ≠ [])
    (hch : List.Chain' (fun a b : ℚ × ℚ => a.1 < b.1) ps)
    (hq : (ps.getLast h).1 ≤ q) : interp q ps = (ps.getLast h).2 := by
  cases ps with
  | nil => exact absurd rfl h
  | cons p rest =>
    obtain ⟨x0, y0⟩ := p
    exact interpAux_last rest x0 y0 q hch hq

/-! ### The plotting positions of `quantile` -/

/-- The `i`-th (zero-based) plotting position of `n` samples:
`(2 i + 1) / (2 n)`, which is `(2 (i + 1) - 1) / (2 n)` for the one-based
index `i + 1`. -/
def plotPos (n i : ℕ) : ℚ :=
  (2 * (i : ℚ) + 1) / (2 * (n : ℚ))

lemma linspace_plotting (n : ℕ) (hn : 1 ≤ n) :
    linspace (1 / (2 * (n : ℚ))) ((2 * (n : ℚ) - 1) / (2 * (n : ℚ))) n =
      (List.range n).map (plotPos n) := by
  rcases eq_or_lt_of_le hn with h1 | h2
  · rw [← h1]
    norm_num [linspace, plotPos, List.range_succ]
  · have h1 : n ≠ 1 := by omega
    have hn0 : (n : ℚ) ≠ 0 := by
      have h : (0 : ℚ) < n := by exact_mod_cast Nat.lt_of_lt_of_le Nat.zero_lt_one hn
      exact ne_of_gt h
    have hn1 : (n : ℚ) - 1 ≠ 0 := by
      have h : (1 : ℚ) < n := by exact_mod_cast h2
      exact sub_ne_zero.mpr (ne_of_gt h)
    unfold linspace
    rw [if_neg h1]
    apply List.map_congr_left
    intro i _
    unfold plotPos
    field_simp
    ring

lemma chain'_posList (n : ℕ) :
    List.Chain' (· < ·) ((List.range n).map (plotPos n)) := by
  cases n with
  | zero => simp
  | succ m =>
    rw [List.chain'_map, List.chain'_range_succ]
    intro k _
    unfold plotPos
    have hpos : (0 : ℚ) < 2 * ((m + 1 : ℕ) : ℚ) := by
      have h : (0 : ℚ) < ((m + 1 : ℕ) : ℚ) := by exact_mod_cast Nat.succ_pos m
      linarith
    rw [div_lt_div_iff_of_pos_right hpos]
    push_cast
    linarith

lemma chain'_zip_left :
    ∀ (xs ys : List ℚ), List.Chain' (· < ·) xs →
      List.Chain' (fun a b : ℚ × ℚ => a.1 < b.1) (xs.zip ys)
  | [], _, _ => by simp
  | _ :: _, [], _ => by simp
  | [_], _ :: _, _ => by simp
  | _ :: _ :: _, [_], _ => by simp
  | x0 :: x1 :: t, y0 :: y1 :: s, h => by
    rw [List.zip_cons_cons, List.zip_cons_cons, List.chain'_cons]
    refine ⟨(List.chain'_cons.mp h).1, ?_⟩
    rw [← List.zip_cons_cons]
    exact chain'_zip_left (x1 :: t) (y1 :: s) (List.chain'_cons.mp h).2

/-! ### C1: quantile recovers the order statistics at the plotting positions -/

/-- C1: for a non-empty ascending-sorted vector `v` of length `n` and any
zero-based index `i < n`, querying `quantile` exactly at the plotting
position `(2(i+1)-1)/(2n)` recovers the order statistic `v[i]`. -/
theorem quantile_plotting_recovery (v : List ℚ) (hs : List.Sorted (· ≤ ·) v)
    (i : ℕ) (hi : i < v.length) :
    quantile (v.map PyVal.num) ((2 * ((i : ℚ) + 1) - 1) / (2 * (v.length : ℚ))) =
      Except.ok v[i] := by
  have hn : 1 ≤ v.length := by omega
  have hnq : (0 : ℚ) < (v.length : ℚ) := by exact_mod_cast hn
  set q : ℚ := (2 * ((i : ℚ) + 1) - 1) / (2 * (v.length : ℚ)) with hqdef
  have hq0 : (0 : ℚ) ≤ q := by
    rw [hqdef]
    apply div_nonneg
    · have : (0 : ℚ) ≤ (i : ℚ) := Nat.cast_nonneg i
      linarith
    · linarith
  have hlen : ¬ (v.map PyVal.num).length < 1 := by
    simp only [List.length_map]
    omega
  rw [quantile, if_neg hlen, if_neg (not_lt.mpr hq0), allNums_map_num]
  have hsort : sortQ v = v := hs.insertionSort_eq
  have hknots : quantileCore v q = v[i] := by
    unfold quantileCore
    rw [hsort, linspace_plotting v.length hn]
    have hips : i < (((List.range v.length).map (plotPos v.length)).zip v).length := by
      simpa [List.length_zip] using hi
    have hchain : List.Chain' (fun a b : ℚ × ℚ => a.1 < b.1)
        (((List.range v.length).map (plotPos v.length)).zip v) :=
      chain'_zip_left _ _ (chain'_posList v.length)
    have hknot := interp_at_knot _ hchain i hips
    have hget : (((List.range v.length).map (plotPos v.length)).zip v).get ⟨i, hips⟩ =
        (plotPos v.length i, v[i]) := by
      simp [List.get_zip, List.get_map, List.get_range]
    rw [hget] at hknot
    have hqf : q = plotPos v.length i := by
      rw [hqdef]
      unfold plotPos
      ring_nf
    rw [hqf]
    exact hknot
  show Except.ok (quantileCore v q) = Except.ok v[i]
  rw [hknots]

theorem quantile_plotting_recovery_witness :
    quantile [PyVal.num 10, PyVal.num 20]
        ((2 * ((0 : ℚ) + 1) - 1) / (2 * ((List.length [(10 : ℚ), 20] : ℕ) : ℚ))) =
      Except.ok ((10 : ℚ)) := by
  have h := quantile_plotting_recovery [10, 20] (by decide) 0 (by decide)
  simpa using h

/-! ### C8: flat extrapolation outside the plotting-position range -/

lemma quantile_eval (v : List ℚ) (hv : v ≠ []) (q : ℚ) (hq : 0 ≤ q) :
    quantile (v.map PyVal.num) q = Except.ok (quantileCore v q) := by
  have hlen : ¬ (v.map PyVal.num).length < 1 := by
    simp only [List.length_map]
    simp [length_lt_one_iff, hv]
  rw [quantile, if_neg hlen, if_neg (not_lt.mpr hq), allNums_map_num]

lemma headI_min_of_sorted (s : List ℚ) (hs : List.Sorted (· ≤ ·) s)
    (h : s ≠ []) : s.headI ∈ s ∧ ∀ a ∈ s, s.headI ≤ a := by
  cases s with
  | nil => exact absurd rfl h
  | cons b t =>
    refine ⟨List.mem_cons_self b t, ?_⟩
    intro a ha
    rcases List.mem_cons.mp ha with h1 | h1
    · rw [h1]
      exact le_rfl
    · exact List.rel_of_sorted_cons hs a h1

lemma getLast_max_of_sorted :
    ∀ (s : List ℚ), List.Sorted (· ≤ ·) s → ∀ (h : s ≠ []) (a : ℚ), a ∈ s →
      a ≤ s.getLast h
  | [], _, h, _, _ => absurd rfl h
  | [b], _, _, a, ha => by
    simp only [List.mem_singleton] at ha
    simp [ha, List.getLast]
  | b :: c :: t, hs, _, a, ha => by
    rw [List.getLast_cons (by simp : c :: t ≠ [])]
    have hconsp := List.sorted_cons.mp hs
    rcases List.mem_cons.mp ha with h1 | h1
    · subst h1
      have hbc : a ≤ c := hconsp.1 c (List.mem_cons_self c t)
      exact le_trans hbc
        (getLast_max_of_sorted (c :: t) hconsp.2 (by simp) c (List.mem_cons_self c t))
    · exact getLast_max_of_sorted (c :: t) hconsp.2 (by simp) a h1

lemma headI_eq_get (s : List ℚ) (h : s ≠ []) :
    s.headI = s.get ⟨0, List.length_pos.mpr h⟩ := by
  cases s with
  | nil => exact absurd rfl h
  | cons b t => rfl

lemma getLastI_eq_getLast (s : List ℚ) (h : s ≠ []) : s.getLastI = s.getLast h := by
  rw [List.getLastI_eq_getLast?, List.getLast?_eq_getLast s h]

lemma get_idx_congr {α : Type*} (l : List α) (i j : ℕ) (h : i = j)
    (hi : i < l.length) : l.get ⟨i, hi⟩ = l.get ⟨j, h ▸ hi⟩ := by
  subst h
  rfl

/-- C8: a quantile request strictly below the first plotting position
`1/(2n)` returns the minimum sample value, and a request strictly above the
last plotting position `(2n-1)/(2n)` returns the maximum sample value: the
interpolation clamps flat at the two boundaries. -/
theorem quantile_flat_extrapolation (v : List ℚ) (hv : v ≠ []) (qlo qhi : ℚ)
    (h0 : 0 ≤ qlo) (hlo : qlo < 1 / (2 * (v.length : ℚ)))
    (hhi : (2 * (v.length : ℚ) - 1) / (2 * (v.length : ℚ)) < qhi) :
    quantile (v.map PyVal.num) qlo = Except.ok ((sortQ v).headI) ∧
    ((sortQ v).headI ∈ v ∧ ∀ a ∈ v, (sortQ v).headI ≤ a) ∧
    quantile (v.map PyVal.num) qhi = Except.ok ((sortQ v).getLastI) ∧
    ((sortQ v).getLastI ∈ v ∧ ∀ a ∈ v, a ≤ (sortQ v).getLastI) := by
  have hn : 1 ≤ v.length := List.length_pos.mpr hv
  have hnq : (0 : ℚ) < (v.length : ℚ) := by exact_mod_cast hn
  have h2n1 : (0 : ℚ) ≤ 2 * (v.length : ℚ) - 1 := by
    have h1 : (1 : ℚ) ≤ (v.length : ℚ) := by exact_mod_cast hn
    linarith
  have hq0hi : (0 : ℚ) ≤ qhi :=
    le_of_lt (lt_of_le_of_lt (div_nonneg h2n1 (by linarith)) hhi)
  have hsperm := List.perm_insertionSort (· ≤ ·) v
  have hslen : (sortQ v).length = v.length := hsperm.length_eq
  have hsne : sortQ v ≠ [] := by
    intro h
    rw [h] at hslen
    simp at hslen
    omega
  have hsorted : List.Sorted (· ≤ ·) (sortQ v) := List.sorted_insertionSort (· ≤ ·) v
  have hmin := headI_min_of_sorted (sortQ v) hsorted hsne
  have hmaxmem : (sortQ v).getLastI ∈ sortQ v := by
    rw [getLastI_eq_getLast (sortQ v) hsne]
    exact List.getLast_mem hsne
  have hmax : ∀ a ∈ sortQ v, a ≤ (sortQ v).getLastI := by
    intro a ha
    rw [getLastI_eq_getLast (sortQ v) hsne]
    exact getLast_max_of_sorted (sortQ v) hsorted hsne a ha
  -- the zipped knot list
  have hpslen : (((List.range v.length).map (plotPos v.length)).zip (sortQ v)).length
      = v.length := by
    simp [List.length_zip, hslen]
  have hps0 : 0 < (((List.range v.length).map (plotPos v.length)).zip (sortQ v)).length := by
    omega
  have hchain : List.Chain' (fun a b : ℚ × ℚ => a.1 < b.1)
      (((List.range v.length).map (plotPos v.length)).zip (sortQ v)) :=
    chain'_zip_left _ _ (chain'_posList v.length)
  have hgetzero :
      (((List.range v.length).map (plotPos v.length)).zip (sortQ v)).get ⟨0, hps0⟩ =
        (plotPos v.length 0, (sortQ v).get ⟨0, by omega⟩) := by
    simp [List.get_zip, List.get_map, List.get_range]
  have hpos0 : plotPos v.length 0 = 1 / (2 * (v.length : ℚ)) := by
    unfold plotPos
    norm_num
  have hcore_lo : quantileCore v qlo = (sortQ v).headI := by
    unfold quantileCore
    rw [linspace_plotting v.length hn]
    rw [interp_below qlo _ hps0 (by rw [hgetzero, hpos0]; exact le_of_lt hlo)]
    rw [hgetzero]
    exact (headI_eq_get (sortQ v) hsne).symm
  have hpsne : (((List.range v.length).map (plotPos v.length)).zip (sortQ v)) ≠ [] := by
    intro h
    rw [h] at hpslen
    simp at hpslen
    omega
  have hlastidx : v.length - 1 <
      (((List.range v.length).map (plotPos v.length)).zip (sortQ v)).length := by
    omega
  have hgetlast :
      (((List.range v.length).map (plotPos v.length)).zip (sortQ v)).getLast hpsne =
        (plotPos v.length (v.length - 1), (sortQ v).get ⟨v.length - 1, by omega⟩) := by
    rw [List.getLast_eq_get]
    rw [get_idx_congr _ _ (v.length - 1) (by omega)]
    simp [List.get_zip, List.get_map, List.get_range]
  have hposlast : plotPos v.length (v.length - 1) =
      (2 * (v.length : ℚ) - 1) / (2 * (v.length : ℚ)) := by
    unfold plotPos
    rw [Nat.cast_sub hn]
    push_cast
    ring_nf
  have hcore_hi : quantileCore v qhi = (sortQ v).getLastI := by
    unfold quantileCore
    rw [linspace_plotting v.length hn]
    rw [interp_above qhi _ hpsne hchain
      (by rw [hgetlast, hposlast]; exact le_of_lt hhi)]
    rw [hgetlast]
    rw [getLastI_eq_getLast (sortQ v) hsne, List.getLast_eq_get]
    exact get_idx_congr _ _ _ (by omega) _
  refine ⟨?_, ⟨hsperm.mem_iff.mp hmin.1, fun a ha => hmin.2 a (hsperm.mem_iff.mpr ha)⟩,
    ?_, ⟨hsperm.mem_iff.mp hmaxmem, fun a ha => hmax a (hsperm.mem_iff.mpr ha)⟩⟩
  · rw [quantile_eval v hv qlo h0, hcore_lo]
  · rw [quantile_eval v hv qhi hq0hi, hcore_hi]

theorem quantile_flat_extrapolation_witness :
    quantile [PyVal.num 2, PyVal.num 1] 0 = Except.ok ((sortQ [2, 1]).headI) ∧
    quantile [PyVal.num 2, PyVal.num 1] 1 = Except.ok ((sortQ [2, 1]).getLastI) := by
  have h := quantile_flat_extrapolation [2, 1] (by decide) 0 1 (by norm_num)
    (by norm_num) (by norm_num)
  exact ⟨h.1, h.2.2.1⟩

/-! ### C3: error propagation — preconditions fail the call, but an internal
computation failure is swallowed and a default `0.0` is returned -/

/-- C3, evaluated at the failing input: precondition violations do fail
`quantile` and `prctile` before computation (first and third conjuncts, and
the fourth for `prctile`), but when the core computation fails — here
`numpy.interp` raising on the non-numeric sample list `["a"]` — the source
catches the exception and returns the manufactured default `0.0` instead of
reporting the failure to the caller (second and fifth conjuncts).  This
refutes the no-default-on-failure part of the claim. -/
theorem quantile_defaults_on_internal_failure :
    quantile ([] : List PyVal) (1 / 2) = Except.error Err.assertionError ∧
    quantile [PyVal.str "a"] (1 / 2) = Except.ok 0 ∧
    quantile [PyVal.num 1] (-1) = Except.error Err.assertionError ∧
    prctile ([] : List PyVal) 50 = Except.error Err.assertionError ∧
    prctile [PyVal.str "a"] 50 = Except.ok 0 := by
  refine ⟨by norm_num [quantile], by norm_num [quantile, allNums],
    by norm_num [quantile], by norm_num [prctile],
    by norm_num [prctile, quantile, allNums]⟩

end Mat2Py
